import Mathlib

/-!
Shallow embedding of the 60fps.design scraper: the primary script, the
serverless variant from the deployment document, and the CLI wrapper.
Strings are modelled as lists of ASCII characters (`Str`); JavaScript
string truthiness is non-emptiness; absent / null values are `Option`.
All definitions are executable.
-/

set_option maxRecDepth 20000

abbrev Str := List Char

/-- JS string truthiness: a string is truthy iff non-empty. -/
def truthyS (s : Str) : Bool := !s.isEmpty

/-- Truthiness of a nullable string (null / undefined are falsy). -/
def truthyO : Option Str → Bool
  | none => false
  | some s => truthyS s

/-- JS `a || b` on nullable strings. -/
def jsOrO (a b : Option Str) : Option Str := if truthyO a then a else b

/-- ASCII whitespace, the ASCII part of the JS character class backslash-s. -/
def isWsChar (c : Char) : Bool :=
  c.toNat = 9 || c.toNat = 10 || c.toNat = 11 || c.toNat = 12 || c.toNat = 13 || c.toNat = 32

/-- Decimal digit. -/
def isDigitChar (c : Char) : Bool := 48 ≤ c.toNat && c.toNat ≤ 57

/-- Lower-case letter or digit: the class given as a-z0-9 in the source. -/
def isLowerAlnum (c : Char) : Bool :=
  (97 ≤ c.toNat && c.toNat ≤ 122) || (48 ≤ c.toNat && c.toNat ≤ 57)

/-- ASCII `toLowerCase`. -/
def jsLower (c : Char) : Char :=
  if 65 ≤ c.toNat && c.toNat ≤ 90 then Char.ofNat (c.toNat + 32) else c

/-- ASCII `toUpperCase`. -/
def jsUpper (c : Char) : Char :=
  if 97 ≤ c.toNat && c.toNat ≤ 122 then Char.ofNat (c.toNat - 32) else c

/-- Split at the first occurrence of `sep`: the part before it and,
when `sep` occurs, the remainder after it. -/
def splitOn1 (sep : Str) : Str → Str × Option Str
  | [] => if sep.isPrefixOf ([] : Str) then ([], some []) else ([], none)
  | c :: rest =>
      if sep.isPrefixOf (c :: rest) then ([], some ((c :: rest).drop sep.length))
      else
        let p := splitOn1 sep rest
        (c :: p.1, p.2)

/-- JS `String.prototype.includes`. -/
def containsStr (s pat : Str) : Bool := (splitOn1 pat s).2.isSome

/-- Remove all trailing characters satisfying `isWsChar` (the trailing-part
of `trim`, and the replace of a trailing whitespace run by nothing). -/
def trimRightWs : Str → Str
  | [] => []
  | c :: cs =>
      match trimRightWs cs with
      | [] => if isWsChar c then [] else [c]
      | r => c :: r

/-- JS `String.prototype.trim` (ASCII whitespace). -/
def jsTrim (s : Str) : Str := trimRightWs (s.dropWhile isWsChar)

/-- The replace of the regex "whitespace-run then digit-run at end" by
nothing: if the string ends in at least one digit immediately preceded by
at least one whitespace character, drop that whole suffix. -/
def stripTrailNum (t : Str) : Str :=
  let r := t.reverse
  let ds := r.takeWhile isDigitChar
  let r1 := r.dropWhile isDigitChar
  let ws := r1.takeWhile isWsChar
  let r2 := r1.dropWhile isWsChar
  if ds.isEmpty || ws.isEmpty then t else r2.reverse

/-- The replace of the regex "question mark then rest of line at end" by
nothing: cut at the first question mark whose remainder holds no line
terminator (dot does not cross line terminators, and the anchor only
matches at the very end). -/
def stripQuery : Str → Str
  | [] => []
  | c :: cs =>
      if c = '?' && cs.all (fun d => !(d.toNat = 10 || d.toNat = 13)) then []
      else c :: stripQuery cs

/-- Helper for `collapseRuns`: `inRun` records whether the previous
character was part of a run being replaced. -/
def collapseRunsGo (p : Char → Bool) (rep : Char) : Bool → Str → Str
  | _, [] => []
  | inRun, c :: cs =>
      if p c then
        if inRun then collapseRunsGo p rep true cs
        else rep :: collapseRunsGo p rep true cs
      else c :: collapseRunsGo p rep false cs

/-- Replace every maximal run of characters satisfying `p` by the single
character `rep` (the global regex replace of a run by one character). -/
def collapseRuns (p : Char → Bool) (rep : Char) (l : Str) : Str :=
  collapseRunsGo p rep false l

/-- Drop a single leading hyphen, when present. -/
def dropOneLeading : Str → Str
  | [] => []
  | c :: cs => if c = '-' then cs else c :: cs

/-- The global regex replace of "hyphen at start or hyphen at end" by
nothing: removes one leading and one trailing hyphen. -/
def trimHyphens (l : Str) : Str :=
  (dropOneLeading (dropOneLeading l).reverse).reverse

/-- Characters kept by the slug filter: the class a-z0-9, whitespace, hyphen. -/
def keepSlugChar (c : Char) : Bool := isLowerAlnum c || isWsChar c || c = '-'

/-- The slug synthesis applied to a recovered title in the no-permalink
fallback: strip a trailing whitespace-plus-digits run, lower-case, keep
only a-z0-9 / whitespace / hyphen, turn whitespace runs into single
hyphens, collapse hyphen runs, trim one leading and one trailing hyphen. -/
def slugOfTitle (t : Str) : Str :=
  trimHyphens
    (collapseRuns (fun c => c = '-') '-'
      (collapseRuns isWsChar '-'
        ((List.map jsLower (stripTrailNum t)).filter keepSlugChar)))

/-! ## Extractor data model

A `VideoNode` records exactly the DOM observations the extractor makes
about one video element: the optional nested source element with its
src attribute, the element's own src and data-src attributes, and the
chain of enclosing elements walked by the ancestor loop (level 0 is the
video element itself, on which the sub-queries also run). -/

structure LinkNode where
  href : Str
  text : Option Str
deriving DecidableEq, Repr

structure AncestorLevel where
  headings : List (Option Str)
  texts : List (Option Str)
  links : List LinkNode
deriving DecidableEq, Repr

structure VideoNode where
  sourceChild : Option (Option Str)
  srcAttr : Option Str
  dataSrcAttr : Option Str
  chain : List AncestorLevel
deriving DecidableEq, Repr

structure RawShot where
  url : Str
  preview : Str
  title : Option Str
deriving DecidableEq, Repr

def litShotsSeg : Str := "/shots/".toList
def litFilter : Str := "filter".toList
def litWatch : Str := "watch".toList
def litGumlet : Str := "video.gumlet.io".toList
def litGumletSlash : Str := "video.gumlet.io/".toList
def litBase : Str := "https://60fps.design".toList
def litBaseShots : Str := "https://60fps.design/shots/".toList
def litQVideo : Str := "?video=".toList
def litMotionVideoSlug : Str := "motion-video-".toList
def litMotionVideoTitle : Str := "Motion Video ".toList
def litVideoTitle : Str := "Video ".toList

/-- Decimal rendering of a number used in template strings. -/
def natStr (n : Nat) : Str := (Nat.repr n).toList

/-- Try the media-id pattern at the current position: the literal
"video.gumlet.io/", a non-empty run without slash, a slash, and a
captured non-empty run without slash. -/
def gumletTryAt (s : Str) : Option Str :=
  if litGumletSlash.isPrefixOf s then
    let r := s.drop litGumletSlash.length
    let bucket := r.takeWhile (fun c => !(c = '/'))
    if bucket.isEmpty then none
    else
      match r.drop bucket.length with
      | '/' :: r2 =>
          let vid := r2.takeWhile (fun c => !(c = '/'))
          if vid.isEmpty then none else some vid
      | _ => none
  else none

/-- Leftmost match of the media-id regex: scan every start position. -/
def gumletScan : Str → Option Str
  | [] => none
  | c :: cs =>
      match gumletTryAt (c :: cs) with
      | some vid => some vid
      | none => gumletScan cs

/-- Normalize an accepted href: strip a leading dot-slash, ensure a
leading slash. -/
def normHref (h : Str) : Str :=
  let h1 := match h with
    | '.' :: '/' :: rest => rest
    | other => other
  match h1 with
  | '/' :: _ => h1
  | _ => '/' :: h1

/-- Primary-variant anchor acceptance: href holds the shot path segment,
holds neither "filter" nor "watch", and is longer than 15 characters. -/
def hrefAcceptPrimary (h : Str) : Bool :=
  containsStr h litShotsSeg && !containsStr h litFilter && !containsStr h litWatch &&
    decide (15 < h.length)

/-- Serverless-variant anchor acceptance: href holds the shot path
segment, does not hold "filter", and is longer than 15 characters. -/
def hrefAcceptServerless (h : Str) : Bool :=
  containsStr h litShotsSeg && !containsStr h litFilter && decide (15 < h.length)

/-- Primary heading-title candidate: trimmed text, truthy, length in
(10,100), not holding "Shots", "Apps", "Filter" or "Learn". -/
def headingOkPrimary (raw : Option Str) : Option Str :=
  match raw with
  | none => none
  | some t0 =>
      let t := jsTrim t0
      if truthyS t && decide (10 < t.length) && decide (t.length < 100) &&
          !containsStr t ("Shots".toList) && !containsStr t ("Apps".toList) &&
          !containsStr t ("Filter".toList) && !containsStr t ("Learn".toList)
      then some t else none

/-- Serverless heading-title candidate: trimmed text, truthy, length in
(10,100), not holding "Shots" or "Apps". -/
def headingOkServerless (raw : Option Str) : Option Str :=
  match raw with
  | none => none
  | some t0 =>
      let t := jsTrim t0
      if truthyS t && decide (10 < t.length) && decide (t.length < 100) &&
          !containsStr t ("Shots".toList) && !containsStr t ("Apps".toList)
      then some t else none

/-- Primary generic-text title candidate: trimmed text, truthy, length in
(15,80), holding one of the motion-design keywords. -/
def textOkPrimary (raw : Option Str) : Option Str :=
  match raw with
  | none => none
  | some t0 =>
      let t := jsTrim t0
      if truthyS t && decide (15 < t.length) && decide (t.length < 80) &&
          (containsStr t ("Interaction".toList) || containsStr t ("Animation".toList) ||
           containsStr t ("Swipe".toList) || containsStr t ("Card".toList) ||
           containsStr t ("Button".toList) || containsStr t ("Progress".toList) ||
           containsStr t ("Splash".toList) || containsStr t ("Gesture".toList))
      then some t else none

/-- First link of a level passing the truthy-href check and the primary
acceptance condition. -/
def findLinkPrimary (links : List LinkNode) : Option LinkNode :=
  links.find? (fun lk => truthyS lk.href && hrefAcceptPrimary lk.href)

/-- First link of a level passing the truthy-href check and the
serverless acceptance condition. -/
def findLinkServerless (links : List LinkNode) : Option LinkNode :=
  links.find? (fun lk => truthyS lk.href && hrefAcceptServerless lk.href)

/-- The shot URL composed from an accepted href. -/
def urlFromHref (videoId : Option Str) (h : Str) : Str :=
  litBase ++ normHref h ++ (if truthyO videoId then litQVideo ++ videoId.getD [] else [])

/-- One level of the primary ancestor walk: headings scan (unguarded, so
it may overwrite an earlier title), generic-text scan when the title is
still falsy, then the link scan. -/
def levelStepPrimary (videoId : Option Str) (title0 : Option Str) (lvl : AncestorLevel) :
    Option Str × Option Str :=
  let title1 := match lvl.headings.findSome? headingOkPrimary with
    | some t => some t
    | none => title0
  let title2 :=
    if truthyO title1 then title1
    else match lvl.texts.findSome? textOkPrimary with
      | some t => some t
      | none => title1
  match findLinkPrimary lvl.links with
  | some lk =>
      let u := urlFromHref videoId lk.href
      let title3 :=
        if !truthyO title2 then
          match lk.text with
          | some lt0 =>
              let lt := jsTrim lt0
              if truthyS lt && decide (5 < lt.length) then
                some (jsTrim (trimRightWs (stripTrailNum lt)))
              else title2
          | none => title2
        else title2
      (title3, some u)
  | none => (title2, none)

/-- One level of the serverless ancestor walk: headings scan (unguarded)
and the link scan; there is no generic-text scan. -/
def levelStepServerless (videoId : Option Str) (title0 : Option Str) (lvl : AncestorLevel) :
    Option Str × Option Str :=
  let title1 := match lvl.headings.findSome? headingOkServerless with
    | some t => some t
    | none => title0
  match findLinkServerless lvl.links with
  | some lk =>
      let u := urlFromHref videoId lk.href
      let title3 :=
        if !truthyO title1 then
          match lk.text with
          | some lt0 =>
              let lt := jsTrim lt0
              if truthyS lt && decide (5 < lt.length) then
                some (jsTrim (stripTrailNum lt))
              else title1
          | none => title1
        else title1
      (title3, some u)
  | none => (title1, none)

/-- The primary ancestor walk: up to 8 levels, stopping as soon as a
level produced a truthy shot URL. -/
def walkPrimary (videoId : Option Str) : Nat → List AncestorLevel →
    Option Str → Option Str × Option Str
  | _, [], title => (title, none)
  | attempts, lvl :: rest, title =>
      if 8 ≤ attempts then (title, none)
      else
        match levelStepPrimary videoId title lvl with
        | (t, some u) => if truthyS u then (t, some u) else walkPrimary videoId (attempts + 1) rest t
        | (t, none) => walkPrimary videoId (attempts + 1) rest t

/-- The serverless ancestor walk: up to 6 levels. -/
def walkServerless (videoId : Option Str) : Nat → List AncestorLevel →
    Option Str → Option Str × Option Str
  | _, [], title => (title, none)
  | attempts, lvl :: rest, title =>
      if 6 ≤ attempts then (title, none)
      else
        match levelStepServerless videoId title lvl with
        | (t, some u) => if truthyS u then (t, some u) else walkServerless videoId (attempts + 1) rest t
        | (t, none) => walkServerless videoId (attempts + 1) rest t

/-- Final emission gate shared by both variants: a record is produced
only when both the shot URL and the preview URL are truthy. -/
def mkShot (index : Nat) (title url preview : Option Str) : Option RawShot :=
  if truthyO url && truthyO preview then
    some { url := url.getD [], preview := preview.getD [],
           title := some (if truthyO title then title.getD [] else litVideoTitle ++ natStr (index + 1)) }
  else none

/-- Preview URL resolution shared by both variants: nested source src,
else the element's own src, else data-src (JS or, so empty strings are
passed over). -/
def resolvePreview (v : VideoNode) : Option Str :=
  let p0 : Option Str := match v.sourceChild with
    | some attr => attr
    | none => none
  if truthyO p0 then p0 else jsOrO v.srcAttr v.dataSrcAttr

/-- Media id: require the plain "video.gumlet.io" inclusion check, then
the leftmost regex match. -/
def resolveVideoId (preview : Option Str) : Option Str :=
  if truthyO preview && containsStr (preview.getD []) litGumlet then
    gumletScan (preview.getD [])
  else none

/-- The slug fallback shared by both variants, entered when no shot URL
was found but a media id exists. -/
def slugFallback (index : Nat) (videoId : Option Str) (title url : Option Str) :
    Option Str × Option Str :=
  if !truthyO url && truthyO videoId then
    let vid := videoId.getD []
    if truthyO title then
      (title, some (litBaseShots ++ slugOfTitle (title.getD []) ++ litQVideo ++ vid))
    else
      (some (litMotionVideoTitle ++ natStr (index + 1)),
       some (litBaseShots ++ litMotionVideoSlug ++ vid.take 8 ++ litQVideo ++ vid))
  else (title, url)

/-- Per-video record extraction, primary variant. -/
def extractVideoPrimary (index : Nat) (v : VideoNode) : Option RawShot :=
  let preview := resolvePreview v
  let videoId := resolveVideoId preview
  let tu := walkPrimary videoId 0 v.chain none
  let tu2 := slugFallback index videoId tu.1 tu.2
  mkShot index tu2.1 tu2.2 preview

/-- Per-video record extraction, serverless variant. -/
def extractVideoServerless (index : Nat) (v : VideoNode) : Option RawShot :=
  let preview := resolvePreview v
  let videoId := resolveVideoId preview
  let tu := walkServerless videoId 0 v.chain none
  let tu2 := slugFallback index videoId tu.1 tu.2
  mkShot index tu2.1 tu2.2 preview

/-- URL deduplication with the seen set. -/
def dedupGo (seen : List Str) : List RawShot → List RawShot
  | [] => []
  | s :: rest =>
      if seen.contains s.url then dedupGo seen rest
      else s :: dedupGo (s.url :: seen) rest

/-- Remove duplicates based on URL, first occurrence wins. -/
def dedupByUrl (l : List RawShot) : List RawShot := dedupGo [] l

/-- Full extraction run, primary variant: per-video extraction in
document order (elements whose URLs cannot be resolved contribute
nothing), then deduplication. -/
def extractShotsPrimary (videos : List VideoNode) : List RawShot :=
  dedupByUrl (videos.enum.filterMap (fun p => extractVideoPrimary p.1 p.2))

/-- Full extraction run, serverless variant. -/
def extractShotsServerless (videos : List VideoNode) : List RawShot :=
  dedupByUrl (videos.enum.filterMap (fun p => extractVideoServerless p.1 p.2))

/-! ## Fallback data, formatter, CLI and HTTP boundary -/

/-- The fixed example data returned by the primary script when scraping
fails (its records carry no title property). -/
def mockDataPrimary : List RawShot :=
  [ { url := "https://60fps.design/shots/amie-drag-to-calendar-morph".toList,
      preview := "https://cdn.60fps.design/shots/amie-drag-to-calendar-morph/preview.mp4".toList,
      title := none },
    { url := "https://60fps.design/shots/cred-recurring-payments-card-swipe".toList,
      preview := "https://cdn.60fps.design/shots/cred-recurring-payments/preview.mp4".toList,
      title := none },
    { url := "https://60fps.design/shots/mozi-onboarding-carousel-tabs".toList,
      preview := "https://cdn.60fps.design/shots/mozi-onboarding/preview.mp4".toList,
      title := none },
    { url := "https://60fps.design/shots/opentable-splash-animation".toList,
      preview := "https://cdn.60fps.design/shots/opentable-splash/preview.mp4".toList,
      title := none },
    { url := "https://60fps.design/shots/framer-motion-cards-grid".toList,
      preview := "https://cdn.60fps.design/shots/framer-motion-cards/preview.mp4".toList,
      title := none } ]

/-- The fixed example data returned by the serverless variant when
scraping fails. -/
def mockDataServerless : List RawShot :=
  [ { url := "https://60fps.design/shots/amie-drag-to-calendar-morph".toList,
      preview := "https://cdn.60fps.design/shots/amie-drag-to-calendar-morph/preview.mp4".toList,
      title := some ("Amie Drag To Calendar Morph".toList) },
    { url := "https://60fps.design/shots/cred-recurring-payments-card-swipe".toList,
      preview := "https://cdn.60fps.design/shots/cred-recurring-payments/preview.mp4".toList,
      title := some ("CRED Recurring Payments Card Swipe".toList) },
    { url := "https://60fps.design/shots/mozi-onboarding-carousel-tabs".toList,
      preview := "https://cdn.60fps.design/shots/mozi-onboarding/preview.mp4".toList,
      title := some ("Mozi Onboarding Carousel Tabs".toList) } ]

/-- JS split on a single separator character. -/
def splitOnChar (sep : Char) : Str → List Str
  | [] => [[]]
  | c :: cs =>
      if c = sep then [] :: splitOnChar sep cs
      else
        match splitOnChar sep cs with
        | h :: t => (c :: h) :: t
        | [] => [[c]]

/-- Capitalize the first character of a word (empty words stay empty). -/
def capWord : Str → Str
  | [] => []
  | c :: cs => jsUpper c :: cs

def litUntitled : Str := "Untitled Shot".toList

/-- Title derivation from a shot URL in the wrappers: the segment after
the first "/shots/" (up to the next one), query stripped, hyphen-split,
each word capitalized, joined by spaces; "Untitled Shot" when the URL is
falsy or lacks the segment. -/
def extractTitleFromUrl (url : Option Str) : Str :=
  if !truthyO url then litUntitled
  else
    let u := url.getD []
    match (splitOn1 litShotsSeg u).2 with
    | none => litUntitled
    | some rest =>
        let part1 := (splitOn1 litShotsSeg rest).1
        List.intercalate [' '] ((splitOnChar '-' (stripQuery part1)).map capWord)

structure FormattedRecord where
  title : Str
  url : Str
  preview_url : Str
  source : Str
  scraped_at : Str
deriving DecidableEq, Repr

/-- The row mapping shared by the CLI wrapper and the HTTP handler. -/
def formatRow (nowIso : Str) (s : RawShot) : FormattedRecord :=
  { title := jsTrim (stripTrailNum (if truthyO s.title then s.title.getD [] else extractTitleFromUrl (some s.url))),
    url := s.url,
    preview_url := s.preview,
    source := "60fps.design".toList,
    scraped_at := nowIso }

/-- All formatted rows of a run. -/
def formatRows (nowIso : Str) (shots : List RawShot) : List FormattedRecord :=
  shots.map (formatRow nowIso)

/-! ## CLI limit parsing and slicing -/

/-- A JS number as produced by the Number conversion. -/
inductive JsNum where
  | nan
  | posInf
  | negInf
  | fin (q : ℚ)
deriving DecidableEq

/-- The Number.isFinite test. -/
def isFiniteNum : JsNum → Bool
  | .fin _ => true
  | _ => false

/-- The comparison with zero (NaN compares false). -/
def jsGtZero : JsNum → Bool
  | .fin q => decide (0 < q)
  | .posInf => true
  | _ => false

/-- Math.floor on a finite value (unused otherwise). -/
def jsFloorNum : JsNum → ℤ
  | .fin q => ⌊q⌋
  | _ => 0

/-- The CLI limit parser: the numeric value of a present, truthy
argument after the limit flag wins if finite and positive; otherwise the
numeric value of the LIMIT environment variable is used if finite and
positive; otherwise null. -/
def parseLimitArg (arg : Option JsNum) (env : JsNum) : Option ℤ :=
  match arg with
  | some n =>
      if isFiniteNum n && jsGtZero n then some (jsFloorNum n)
      else if isFiniteNum env && jsGtZero env then some (jsFloorNum env)
      else none
  | none =>
      if isFiniteNum env && jsGtZero env then some (jsFloorNum env)
      else none

/-- The CLI slicing step: rows are sliced only when the parsed limit is
truthy (a zero limit is falsy and leaves the rows whole). -/
def applyLimitCLI (limit : Option ℤ) (rows : List FormattedRecord) : List FormattedRecord :=
  match limit with
  | none => rows
  | some k => if k = 0 then rows else rows.take k.toNat

set_option linter.unusedVariables false in
/-- The serverless HTTP handler's successful response body: it formats
the shots and returns them; the limit query parameter is never read. -/
def httpHandlerRows (limitParam : Option ℕ) (shots : List RawShot) (nowIso : Str) :
    List FormattedRecord :=
  formatRows nowIso shots

/-! ## Incremental-load loop decision -/

/-- Primary-variant decision taken after an iteration of the load loop,
with the attempt counter already incremented: stop on an exhausted
budget of 20, stop early when no click happened and content is present,
otherwise continue while fewer than 3 attempts are done or the click
grew the count. -/
def continuePrimary (attempts : Nat) (clicked : Bool) (count prev : Nat) : Bool :=
  if 20 ≤ attempts then false
  else if !clicked && decide (0 < count) then false
  else decide (attempts < 3) || (clicked && decide (prev < count))

/-- Serverless-variant decision: budget 5, and the while condition does
not mention the click flag. -/
def continueServerless (attempts : Nat) (clicked : Bool) (count prev : Nat) : Bool :=
  if 5 ≤ attempts then false
  else if !clicked && decide (0 < count) then false
  else decide (attempts < 3) || decide (prev < count)

/-- The decision as the claim words it: the budget is not exhausted, AND
(fewer than 3 attempts are completed OR a click occurred and the count
strictly increased), AND not the early-stop situation (no click this
iteration with a nonzero count). -/
def claimedContinue (maxAttempts attempts : Nat) (clicked : Bool) (count prev : Nat) : Bool :=
  decide (attempts < maxAttempts) &&
    (decide (attempts < 3) || (clicked && decide (prev < count))) &&
    !(!clicked && decide (0 < count))

/-! ## Browser lifecycle traces -/

inductive Ev where
  | launch
  | close
deriving DecidableEq, Repr

/-- Primary-variant lifecycle: launch, context and page creation happen
before the try block; the try body (navigation, detection, loading,
extraction) is guarded by a catch that substitutes the fixed example
data and a finally that closes the browser. -/
def runPrimaryTrace (launch ctx pg : Except Str Unit)
    (body : Except Str (List RawShot)) : List Ev × Except Str (List RawShot) :=
  match launch with
  | .error e => ([], .error e)
  | .ok _ =>
      match ctx with
      | .error e => ([Ev.launch], .error e)
      | .ok _ =>
          match pg with
          | .error e => ([Ev.launch], .error e)
          | .ok _ =>
              match body with
              | .ok shots => ([Ev.launch, Ev.close], .ok shots)
              | .error _ => ([Ev.launch, Ev.close], .ok mockDataPrimary)

/-- Serverless-variant lifecycle: the launch itself happens inside the
try block, and the finally closes the browser only when the launch
succeeded. -/
def runServerlessTrace (launch : Except Str Unit)
    (body : Except Str (List RawShot)) : List Ev × Except Str (List RawShot) :=
  match launch with
  | .error _ => ([], .ok mockDataServerless)
  | .ok _ =>
      match body with
      | .ok shots => ([Ev.launch, Ev.close], .ok shots)
      | .error _ => ([Ev.launch, Ev.close], .ok mockDataServerless)

/-! ## Concrete inputs used by witnesses and counterexamples -/

/-- A video element with a gumlet preview and one qualifying anchor. -/
def demoVideo : VideoNode :=
  { sourceChild := some (some ("https://video.gumlet.io/bucket1/abc12345/main.mp4".toList)),
    srcAttr := none, dataSrcAttr := none,
    chain := [ { headings := [], texts := [],
                 links := [ { href := "/shots/demo-swipe-interaction".toList,
                              text := some ("Demo Swipe  7".toList) } ] } ] }

/-- A video element whose only anchor href holds the word "watch". -/
def watchVideo : VideoNode :=
  { sourceChild := some (some ("https://video.gumlet.io/bucket1/abc12345/main.mp4".toList)),
    srcAttr := none, dataSrcAttr := none,
    chain := [ { headings := [], texts := [],
                 links := [ { href := "/shots/watch-demo-app".toList, text := none } ] } ] }

/-! ## Theorems -/

/-- Claim C5: in the incremental loader of both variants, after each
iteration the loop continues exactly when the attempt budget (20
primary, 5 serverless) is not exhausted and (fewer than 3 attempts have
completed, or a click occurred this iteration and the re-counted element
count strictly increased), except that it stops early with success when
no click occurred this iteration and the current count is nonzero. -/
theorem loadLoop_decision_matches_claim (attempts : Nat) (clicked : Bool) (count prev : Nat) :
    continuePrimary attempts clicked count prev = claimedContinue 20 attempts clicked count prev ∧
    continueServerless attempts clicked count prev = claimedContinue 5 attempts clicked count prev := by
  cases clicked <;>
    constructor <;>
      simp only [continuePrimary, continueServerless, claimedContinue, Bool.not_true,
        Bool.not_false, Bool.true_and, Bool.false_and, Bool.and_true, Bool.and_false,
        Bool.false_or, Bool.or_false, Bool.not_not] <;>
      split_ifs with h1 h2 <;>
      simp_all

/-- Claim C4 (failing evaluation): the serverless HTTP handler ignores
the limit query parameter; with limit 1 and the three-record fallback
set it returns all 3 formatted records, identical to the response with
no limit at all, where the claim and the deployment document promise
exactly the first record. -/
theorem httpHandler_ignores_limit :
    (httpHandlerRows (some 1) mockDataServerless []).length = 3 ∧
    httpHandlerRows (some 1) mockDataServerless [] = httpHandlerRows none mockDataServerless [] := by
  exact ⟨rfl, rfl⟩

/-- Claim C8 (counterexample): in the primary variant the browser is
launched before the try block; when context creation fails the error
escapes while the trace holds a launch and no close. -/
theorem browserClose_counterexample :
    runPrimaryTrace (Except.ok ()) (Except.error ("context creation failed".toList))
        (Except.ok ()) (Except.ok []) =
      ([Ev.launch], Except.error ("context creation failed".toList)) ∧
    Ev.close ∉ (runPrimaryTrace (Except.ok ()) (Except.error ("context creation failed".toList))
        (Except.ok ()) (Except.ok [])).1 := by
  exact ⟨rfl, by decide⟩

/-- Claim C8 (amended): the browser is closed on every exit path that
reaches the try block — in the primary variant whenever launch, context
and page creation all succeeded, and in the serverless variant on every
execution in which a browser was launched at all. -/
theorem browserClose_on_guarded_paths :
    (∀ (launch ctx pg : Except Str Unit) (body : Except Str (List RawShot)),
      launch = Except.ok () → ctx = Except.ok () → pg = Except.ok () →
      Ev.close ∈ (runPrimaryTrace launch ctx pg body).1) ∧
    (∀ (launch : Except Str Unit) (body : Except Str (List RawShot)),
      Ev.launch ∈ (runServerlessTrace launch body).1 →
      Ev.close ∈ (runServerlessTrace launch body).1) := by
  constructor
  · intro launch ctx pg body hl hc hp
    subst hl; subst hc; subst hp
    cases body <;> simp [runPrimaryTrace]
  · intro launch body h
    cases launch with
    | error e => simp [runServerlessTrace] at h
    | ok u => cases u; cases body <;> simp [runServerlessTrace]

theorem browserClose_on_guarded_paths_witness :
    Ev.close ∈ (runPrimaryTrace (Except.ok ()) (Except.ok ()) (Except.ok ())
        (Except.error ("navigation timeout".toList))).1 ∧
    Ev.close ∈ (runServerlessTrace (Except.ok ()) (Except.ok [])).1 :=
  ⟨browserClose_on_guarded_paths.1 _ _ _ _ rfl rfl rfl,
   browserClose_on_guarded_paths.2 _ _ (by decide)⟩

/-- Claim C3: whenever the try body (navigation, content detection,
incremental loading, extraction) raises, both variants return their
fixed example data: 5 records for the primary script and 3 for the
serverless one, every record with truthy url and preview, and the
formatted output derived from them is non-empty with every row carrying
truthy title, url and preview_url. -/
theorem fallback_guarantee (e now : Str) :
    (runPrimaryTrace (Except.ok ()) (Except.ok ()) (Except.ok ()) (Except.error e)).2 =
      Except.ok mockDataPrimary ∧
    (runServerlessTrace (Except.ok ()) (Except.error e)).2 = Except.ok mockDataServerless ∧
    mockDataPrimary.length = 5 ∧ mockDataServerless.length = 3 ∧
    (mockDataPrimary.all fun r => truthyS r.url && truthyS r.preview) = true ∧
    (mockDataServerless.all fun r => truthyS r.url && truthyS r.preview) = true ∧
    (formatRows now mockDataPrimary).length = 5 ∧
    (formatRows now mockDataServerless).length = 3 ∧
    ((formatRows now mockDataPrimary).all fun r =>
      truthyS r.title && truthyS r.url && truthyS r.preview_url) = true ∧
    ((formatRows now mockDataServerless).all fun r =>
      truthyS r.title && truthyS r.url && truthyS r.preview_url) = true := by
  exact ⟨rfl, rfl, rfl, rfl, rfl, rfl, rfl, rfl, rfl, rfl⟩

/-- Claim C6 (counterexample): the serverless link acceptance lacks the
"watch" exclusion — an href inside the shot path that holds "watch" is
accepted, and the serverless extractor emits a record embedding it. -/
theorem hrefAccept_watch_counterexample :
    hrefAcceptServerless ("/shots/watch-demo-app".toList) = true ∧
    containsStr ("/shots/watch-demo-app".toList) litWatch = true ∧
    extractVideoServerless 0 watchVideo =
      some { url := "https://60fps.design/shots/watch-demo-app?video=abc12345".toList,
             preview := "https://video.gumlet.io/bucket1/abc12345/main.mp4".toList,
             title := some ("Video 1".toList) } ∧
    containsStr ("https://60fps.design/shots/watch-demo-app?video=abc12345".toList) litWatch
      = true := by
  exact ⟨by decide, by decide, by decide, by decide⟩

/-- Claim C6 (amended): the primary variant accepts an anchor href only
if it holds the shot path segment, holds neither "filter" nor "watch",
and is longer than 15 characters — so a primary-accepted href never
holds "watch" — while the serverless variant omits the "watch"
exclusion and accepts any href holding the shot path segment, not
holding "filter", and longer than 15 characters. -/
theorem hrefAccept_characterization :
    (∀ h : Str, hrefAcceptPrimary h = true ↔
      (containsStr h litShotsSeg = true ∧ containsStr h litFilter = false ∧
       containsStr h litWatch = false ∧ 15 < h.length)) ∧
    (∀ h : Str, hrefAcceptServerless h = true ↔
      (containsStr h litShotsSeg = true ∧ containsStr h litFilter = false ∧
       15 < h.length)) ∧
    (∀ h : Str, hrefAcceptPrimary h = true → containsStr h litWatch = false) := by
  refine ⟨?_, ?_, ?_⟩
  · intro h
    simp only [hrefAcceptPrimary, Bool.and_eq_true, Bool.not_eq_true', decide_eq_true_eq]
    tauto
  · intro h
    simp only [hrefAcceptServerless, Bool.and_eq_true, Bool.not_eq_true', decide_eq_true_eq]
    tauto
  · intro h hacc
    simp only [hrefAcceptPrimary, Bool.and_eq_true, Bool.not_eq_true', decide_eq_true_eq] at hacc
    exact hacc.1.2

theorem hrefAccept_characterization_witness :
    containsStr ("/shots/demo-swipe-interaction".toList) litWatch = false :=
  hrefAccept_characterization.2.2 _ (by decide)

lemma contains_eq_mem_decide (seen : List Str) (u : Str) :
    seen.contains u = decide (u ∈ seen) := by
  simp [List.contains]

lemma dedupGo_sublist (l : List RawShot) : ∀ seen, (dedupGo seen l).Sublist l := by
  induction l with
  | nil => intro seen; simp [dedupGo]
  | cons s rest ih =>
      intro seen
      simp only [dedupGo]
      split
      · exact (ih seen).cons s
      · exact (ih (s.url :: seen)).cons₂ s

lemma mem_dedupGo {r : RawShot} :
    ∀ (l : List RawShot) (seen : List Str), r ∈ dedupGo seen l → r ∈ l ∧ r.url ∉ seen := by
  intro l
  induction l with
  | nil => intro seen h; simp [dedupGo] at h
  | cons s rest ih =>
      intro seen h
      simp only [dedupGo] at h
      by_cases hc : s.url ∈ seen
      · rw [if_pos (by simp [contains_eq_mem_decide, hc])] at h
        obtain ⟨h1, h2⟩ := ih seen h
        exact ⟨List.mem_cons_of_mem _ h1, h2⟩
      · rw [if_neg (by simp [contains_eq_mem_decide, hc])] at h
        rcases List.mem_cons.mp h with heq | htail
        · subst heq; exact ⟨List.mem_cons_self _ _, hc⟩
        · obtain ⟨h1, h2⟩ := ih (s.url :: seen) htail
          exact ⟨List.mem_cons_of_mem _ h1, fun hx => h2 (List.mem_cons_of_mem _ hx)⟩

lemma dedupGo_pairwise :
    ∀ (l : List RawShot) (seen : List Str),
      (dedupGo seen l).Pairwise (fun a b => a.url ≠ b.url) := by
  intro l
  induction l with
  | nil => intro seen; simp [dedupGo]
  | cons s rest ih =>
      intro seen
      simp only [dedupGo]
      split
      · exact ih seen
      · refine List.Pairwise.cons ?_ (ih (s.url :: seen))
        intro b hb
        have := (mem_dedupGo rest (s.url :: seen) hb).2
        intro hco
        exact this (by rw [← hco]; exact List.mem_cons_self _ _)

lemma dedupGo_seen_congr :
    ∀ (l : List RawShot) (s1 s2 : List Str),
      (∀ x ∈ l, (x.url ∈ s1 ↔ x.url ∈ s2)) → dedupGo s1 l = dedupGo s2 l := by
  intro l
  induction l with
  | nil => intro s1 s2 _; rfl
  | cons s rest ih =>
      intro s1 s2 hiff
      simp only [dedupGo]
      have hs := hiff s (List.mem_cons_self _ _)
      by_cases hc : s.url ∈ s1
      · rw [if_pos (by simp [contains_eq_mem_decide, hc]),
            if_pos (by simp [contains_eq_mem_decide, hs.mp hc])]
        exact ih s1 s2 (fun x hx => hiff x (List.mem_cons_of_mem _ hx))
      · have hc2 : s.url ∉ s2 := fun h => hc (hs.mpr h)
        rw [if_neg (by simp [contains_eq_mem_decide, hc]),
            if_neg (by simp [contains_eq_mem_decide, hc2])]
        congr 1
        refine ih (s.url :: s1) (s.url :: s2) ?_
        intro x hx
        simp only [List.mem_cons]
        constructor
        · rintro (h | h)
          · exact Or.inl h
          · exact Or.inr ((hiff x (List.mem_cons_of_mem _ hx)).mp h)
        · rintro (h | h)
          · exact Or.inl h
          · exact Or.inr ((hiff x (List.mem_cons_of_mem _ hx)).mpr h)

lemma dedupGo_filter_seen :
    ∀ (l : List RawShot) (seen : List Str) (u : Str), u ∈ seen →
      dedupGo seen (l.filter fun x => !(x.url == u)) = dedupGo seen l := by
  intro l
  induction l with
  | nil => intro seen u _; rfl
  | cons s rest ih =>
      intro seen u hu
      by_cases he : s.url = u
      · have : (fun x => !(x.url == u)) s = false := by simp [he]
        rw [List.filter_cons_of_neg (by simp [this])]
        have : dedupGo seen (s :: rest) = dedupGo seen rest := by
          simp only [dedupGo]
          rw [if_pos (by simp [contains_eq_mem_decide, he ▸ hu])]
        rw [this, ih seen u hu]
      · rw [List.filter_cons_of_pos (by simp [he])]
        simp only [dedupGo]
        split
        · exact ih seen u hu
        · rw [ih (s.url :: seen) u (List.mem_cons_of_mem _ hu)]

lemma dedupGo_covers :
    ∀ (l : List RawShot) (seen : List Str) (x : RawShot), x ∈ l → x.url ∉ seen →
      ∃ y ∈ dedupGo seen l, y.url = x.url := by
  intro l
  induction l with
  | nil => intro seen x hx _; simp at hx
  | cons s rest ih =>
      intro seen x hx hseen
      simp only [dedupGo]
      by_cases hc : s.url ∈ seen
      · rw [if_pos (by simp [contains_eq_mem_decide, hc])]
        rcases List.mem_cons.mp hx with heq | htail
        · exact absurd (heq ▸ hc) hseen
        · exact ih seen x htail hseen
      · rw [if_neg (by simp [contains_eq_mem_decide, hc])]
        rcases List.mem_cons.mp hx with heq | htail
        · exact ⟨s, List.mem_cons_self _ _, by rw [heq]⟩
        · by_cases hus : x.url = s.url
          · exact ⟨s, List.mem_cons_self _ _, hus.symm⟩
          · obtain ⟨y, hy, hyu⟩ := ih (s.url :: seen) x htail
              (by simp only [List.mem_cons]; rintro (h | h); exact hus h; exact hseen h)
            exact ⟨y, List.mem_cons_of_mem _ hy, hyu⟩

/-- Claim C2: the output of an extraction run holds no two records with
equal url (both variants); deduplication preserves relative order (the
result is a sublist of its input), keeps exactly the first occurrence of
each distinct url (the recursive characterization below), and no url of
the input is lost. -/
theorem dedup_first_occurrence_unique :
    (∀ videos, (extractShotsPrimary videos).Pairwise (fun a b => a.url ≠ b.url)) ∧
    (∀ videos, (extractShotsServerless videos).Pairwise (fun a b => a.url ≠ b.url)) ∧
    (∀ l : List RawShot, (dedupByUrl l).Sublist l) ∧
    (∀ (s : RawShot) (rest : List RawShot),
      dedupByUrl (s :: rest) = s :: dedupByUrl (rest.filter fun x => !(x.url == s.url))) ∧
    (∀ (l : List RawShot) (x : RawShot), x ∈ l → ∃ y ∈ dedupByUrl l, y.url = x.url) := by
  refine ⟨?_, ?_, ?_, ?_, ?_⟩
  · intro videos; exact dedupGo_pairwise _ []
  · intro videos; exact dedupGo_pairwise _ []
  · intro l; exact dedupGo_sublist l []
  · intro s rest
    show dedupGo [] (s :: rest) = _
    simp only [dedupGo]
    rw [if_neg (by simp [contains_eq_mem_decide])]
    congr 1
    rw [← dedupGo_filter_seen rest [s.url] s.url (List.mem_cons_self _ _)]
    show dedupGo [s.url] (rest.filter fun x => !(x.url == s.url)) =
      dedupGo [] (rest.filter fun x => !(x.url == s.url))
    refine dedupGo_seen_congr _ _ _ ?_
    intro x hx
    simp only [List.mem_filter, Bool.not_eq_true'] at hx
    have hne : x.url ≠ s.url := by
      intro h
      have h2 := hx.2
      rw [h] at h2
      simp at h2
    simp [hne]
  · intro l x hx; exact dedupGo_covers l [] x hx (by simp)

lemma truthyS_ne_nil {s : Str} (h : truthyS s = true) : s ≠ [] := by
  cases s with
  | nil => simp [truthyS] at h
  | cons c cs => exact fun hx => List.noConfusion hx

lemma mkShot_some_truthy {i : Nat} {t u p : Option Str} {r : RawShot}
    (h : mkShot i t u p = some r) : truthyS r.url = true ∧ truthyS r.preview = true := by
  unfold mkShot at h
  by_cases hc : (truthyO u && truthyO p) = true
  · rw [if_pos hc] at h
    obtain ⟨hu, hp⟩ : truthyO u = true ∧ truthyO p = true := by simpa using hc
    injection h with h
    subst h
    constructor
    · cases u with
      | none => simp [truthyO] at hu
      | some s => exact hu
    · cases p with
      | none => simp [truthyO] at hp
      | some s => exact hp
  · rw [if_neg hc] at h
    exact absurd h (by simp)

lemma extractVideoPrimary_some_truthy {i : Nat} {v : VideoNode} {r : RawShot}
    (h : extractVideoPrimary i v = some r) :
    truthyS r.url = true ∧ truthyS r.preview = true :=
  mkShot_some_truthy h

lemma extractVideoServerless_some_truthy {i : Nat} {v : VideoNode} {r : RawShot}
    (h : extractVideoServerless i v = some r) :
    truthyS r.url = true ∧ truthyS r.preview = true :=
  mkShot_some_truthy h

/-- Claim C1: every record in the returned list of an extraction run
(primary and serverless) has a non-empty url and a non-empty preview
URL; and a video element for which either value is not truthy
contributes no record at all — the emission gate returns nothing
instead of padding with nulls. -/
theorem extractor_completeness_gate :
    (∀ videos r, r ∈ extractShotsPrimary videos → r.url ≠ [] ∧ r.preview ≠ []) ∧
    (∀ videos r, r ∈ extractShotsServerless videos → r.url ≠ [] ∧ r.preview ≠ []) ∧
    (∀ (index : Nat) (title url preview : Option Str),
      (truthyO url && truthyO preview) = false → mkShot index title url preview = none) := by
  refine ⟨?_, ?_, ?_⟩
  · intro videos r hr
    have hm := (mem_dedupGo _ [] hr).1
    obtain ⟨⟨i, v⟩, _, hev⟩ := List.mem_filterMap.mp hm
    obtain ⟨h1, h2⟩ := extractVideoPrimary_some_truthy hev
    exact ⟨truthyS_ne_nil h1, truthyS_ne_nil h2⟩
  · intro videos r hr
    have hm := (mem_dedupGo _ [] hr).1
    obtain ⟨⟨i, v⟩, _, hev⟩ := List.mem_filterMap.mp hm
    obtain ⟨h1, h2⟩ := extractVideoServerless_some_truthy hev
    exact ⟨truthyS_ne_nil h1, truthyS_ne_nil h2⟩
  · intro index title url preview h
    simp [mkShot, h]

theorem extractor_completeness_gate_witness :
    ({ url := "https://60fps.design/shots/demo-swipe-interaction?video=abc12345".toList,
       preview := "https://video.gumlet.io/bucket1/abc12345/main.mp4".toList,
       title := some ("Demo Swipe".toList) } : RawShot).url ≠ [] ∧
    ({ url := "https://60fps.design/shots/demo-swipe-interaction?video=abc12345".toList,
       preview := "https://video.gumlet.io/bucket1/abc12345/main.mp4".toList,
       title := some ("Demo Swipe".toList) } : RawShot).preview ≠ [] :=
  extractor_completeness_gate.1 [demoVideo] _ (by decide)

lemma parseLimitArg_nonneg {a : Option JsNum} {e : JsNum} {k : ℤ}
    (h : parseLimitArg a e = some k) : 0 ≤ k := by
  have hfin : ∀ (n : JsNum), (isFiniteNum n && jsGtZero n) = true → 0 ≤ jsFloorNum n := by
    intro n hn
    cases n with
    | fin q =>
        have hq : (0 : ℚ) < q := by simpa [isFiniteNum, jsGtZero] using hn
        simpa [jsFloorNum] using Int.floor_nonneg.mpr (le_of_lt hq)
    | nan => simp [isFiniteNum] at hn
    | posInf => simp [isFiniteNum] at hn
    | negInf => simp [isFiniteNum] at hn
  cases a with
  | some n =>
      simp only [parseLimitArg] at h
      by_cases hc : (isFiniteNum n && jsGtZero n) = true
      · rw [if_pos hc] at h
        injection h with h
        exact h ▸ hfin n hc
      · rw [if_neg hc] at h
        by_cases hc2 : (isFiniteNum e && jsGtZero e) = true
        · rw [if_pos hc2] at h
          injection h with h
          exact h ▸ hfin e hc2
        · rw [if_neg hc2] at h; exact absurd h (by simp)
  | none =>
      simp only [parseLimitArg] at h
      by_cases hc2 : (isFiniteNum e && jsGtZero e) = true
      · rw [if_pos hc2] at h
        injection h with h
        exact h ▸ hfin e hc2
      · rw [if_neg hc2] at h; exact absurd h (by simp)

/-- Claim C9: the CLI limit parser returns the floor of the value
exactly when the argument after the limit flag (or, failing that, the
LIMIT environment variable) is a finite number greater than zero; every
other case yields null; and applying the parsed limit never empties a
non-empty row list, so an invalid limit is silently ignored. -/
theorem parseLimit_characterization :
    (∀ (n e : JsNum), (isFiniteNum n && jsGtZero n) = true →
      parseLimitArg (some n) e = some (jsFloorNum n)) ∧
    (∀ (n e : JsNum), (isFiniteNum n && jsGtZero n) = false →
      parseLimitArg (some n) e = parseLimitArg none e) ∧
    (∀ e : JsNum, (isFiniteNum e && jsGtZero e) = true →
      parseLimitArg none e = some (jsFloorNum e)) ∧
    (∀ e : JsNum, (isFiniteNum e && jsGtZero e) = false →
      parseLimitArg none e = none) ∧
    (∀ (a : Option JsNum) (e : JsNum) (rows : List FormattedRecord),
      rows ≠ [] → applyLimitCLI (parseLimitArg a e) rows ≠ []) := by
  refine ⟨?_, ?_, ?_, ?_, ?_⟩
  · intro n e h; simp [parseLimitArg, h]
  · intro n e h; simp [parseLimitArg, h]
  · intro e h; simp [parseLimitArg, h]
  · intro e h; simp [parseLimitArg, h]
  · intro a e rows hrows
    cases hpl : parseLimitArg a e with
    | none => simpa [applyLimitCLI, hpl] using hrows
    | some k =>
        have hk : 0 ≤ k := parseLimitArg_nonneg hpl
        by_cases hz : k = 0
        · simpa [applyLimitCLI, hz] using hrows
        · have h1 : 1 ≤ k.toNat := by omega
          simp only [applyLimitCLI, if_neg hz]
          cases rows with
          | nil => exact absurd rfl hrows
          | cons x xs =>
              cases hn : k.toNat with
              | zero => omega
              | succ m => simp [List.take]

theorem parseLimit_characterization_witness :
    parseLimitArg (some (JsNum.fin 3)) JsNum.nan = some 3 ∧
    parseLimitArg (some JsNum.nan) (JsNum.fin 2) = some 2 ∧
    parseLimitArg (some JsNum.nan) JsNum.nan = none ∧
    applyLimitCLI (parseLimitArg (some (JsNum.fin (-4))) JsNum.nan)
      (formatRows [] mockDataPrimary) ≠ [] := by
  refine ⟨?_, ?_, ?_, ?_⟩
  · rw [parseLimit_characterization.1 (JsNum.fin 3) JsNum.nan (by decide)]; rfl
  · rw [parseLimit_characterization.2.1 JsNum.nan (JsNum.fin 2) (by decide)]
    rw [parseLimit_characterization.2.2.1 (JsNum.fin 2) (by decide)]; rfl
  · rw [parseLimit_characterization.2.1 JsNum.nan JsNum.nan (by decide)]
    exact parseLimit_characterization.2.2.2.1 JsNum.nan (by decide)
  · exact parseLimit_characterization.2.2.2.2 (some (JsNum.fin (-4))) JsNum.nan _ (by decide)

/-! ### Slug idempotence infrastructure -/

lemma mem_collapseRunsGo (p : Char → Bool) (rep : Char) :
    ∀ (l : Str) (b : Bool) (c : Char),
      c ∈ collapseRunsGo p rep b l → c = rep ∨ (c ∈ l ∧ p c = false) := by
  intro l
  induction l with
  | nil => intro b c h; simp [collapseRunsGo] at h
  | cons x xs ih =>
      intro b c h
      simp only [collapseRunsGo] at h
      by_cases hx : p x = true
      · rw [if_pos hx] at h
        cases b with
        | true =>
            rcases ih true c h with h1 | ⟨h1, h2⟩
            · exact Or.inl h1
            · exact Or.inr ⟨List.mem_cons_of_mem _ h1, h2⟩
        | false =>
            simp only [if_neg (by simp : ¬(false = true))] at h
            rcases List.mem_cons.mp h with h1 | h1
            · exact Or.inl h1
            · rcases ih true c h1 with h2 | ⟨h2, h3⟩
              · exact Or.inl h2
              · exact Or.inr ⟨List.mem_cons_of_mem _ h2, h3⟩
      · rw [if_neg hx] at h
        rcases List.mem_cons.mp h with h1 | h1
        · exact Or.inr ⟨h1 ▸ List.mem_cons_self _ _, h1 ▸ (by simpa using hx)⟩
        · rcases ih false c h1 with h2 | ⟨h2, h3⟩
          · exact Or.inl h2
          · exact Or.inr ⟨List.mem_cons_of_mem _ h2, h3⟩

lemma collapseRunsGo_props (p : Char → Bool) (rep : Char) :
    ∀ l : Str,
      (List.Chain' (fun a b => p a = true → p b = false) (collapseRunsGo p rep true l) ∧
       ∀ x, (collapseRunsGo p rep true l).head? = some x → p x = false) ∧
      List.Chain' (fun a b => p a = true → p b = false) (collapseRunsGo p rep false l) := by
  intro l
  induction l with
  | nil => exact ⟨⟨List.chain'_nil, by intro x h; simp [collapseRunsGo] at h⟩, List.chain'_nil⟩
  | cons x xs ih =>
      obtain ⟨⟨ihT, ihH⟩, ihF⟩ := ih
      by_cases hx : p x = true
      · refine ⟨⟨?_, ?_⟩, ?_⟩
        · simpa only [collapseRunsGo, if_pos hx, if_pos rfl] using ihT
        · intro y hy
          simp only [collapseRunsGo, if_pos hx, if_pos rfl] at hy
          exact ihH y hy
        · simp only [collapseRunsGo, if_pos hx, if_neg (by simp : ¬(false = true))]
          refine List.chain'_cons'.mpr ⟨?_, ihT⟩
          intro y hy
          intro _
          exact ihH y hy
      · refine ⟨⟨?_, ?_⟩, ?_⟩
        · simp only [collapseRunsGo, if_neg hx]
          refine List.chain'_cons'.mpr ⟨?_, ihF⟩
          intro y hy hpx
          exact absurd hpx hx
        · intro y hy
          simp only [collapseRunsGo, if_neg hx, List.head?_cons] at hy
          injection hy with hy
          subst hy
          simpa using hx
        · simp only [collapseRunsGo, if_neg hx]
          refine List.chain'_cons'.mpr ⟨?_, ihF⟩
          intro y hy hpx
          exact absurd hpx hx

lemma collapseRunsGo_noop_of_not (p : Char → Bool) (rep : Char) :
    ∀ l : Str, (∀ c ∈ l, p c = false) → collapseRunsGo p rep false l = l := by
  intro l
  induction l with
  | nil => intro _; rfl
  | cons x xs ih =>
      intro h
      have hx := h x (List.mem_cons_self _ _)
      simp only [collapseRunsGo, if_neg (by simp [hx] : ¬(p x = true))]
      rw [ih (fun c hc => h c (List.mem_cons_of_mem _ hc))]

lemma collapseRunsGo_true_eq_false_of_head (p : Char → Bool) (rep : Char) :
    ∀ l : Str, (∀ x, l.head? = some x → p x = false) →
      collapseRunsGo p rep true l = collapseRunsGo p rep false l := by
  intro l h
  cases l with
  | nil => rfl
  | cons x xs =>
      have hx := h x (by simp)
      simp only [collapseRunsGo, if_neg (by simp [hx] : ¬(p x = true))]

lemma collapseRunsGo_noop_of_chain (p : Char → Bool) (rep : Char) :
    ∀ l : Str, List.Chain' (fun a b => p a = true → p b = false) l →
      (∀ c ∈ l, p c = true → c = rep) → collapseRunsGo p rep false l = l := by
  intro l
  induction l with
  | nil => intro _ _; rfl
  | cons x xs ih =>
      intro hch hall
      obtain ⟨hrel, htail⟩ := List.chain'_cons'.mp hch
      by_cases hx : p x = true
      · have hxr : x = rep := hall x (List.mem_cons_self _ _) hx
        simp only [collapseRunsGo, if_pos hx, if_neg (by simp : ¬(false = true))]
        rw [collapseRunsGo_true_eq_false_of_head p rep xs
          (fun y hy => hrel y hy hx)]
        rw [ih htail (fun c hc => hall c (List.mem_cons_of_mem _ hc)), hxr]
      · simp only [collapseRunsGo, if_neg hx]
        rw [ih htail (fun c hc => hall c (List.mem_cons_of_mem _ hc))]

lemma chain_decide_iff {l : Str} :
    List.Chain' (fun a b : Char => decide (a = '-') = true → decide (b = '-') = false) l ↔
    List.Chain' (fun a b : Char => a = '-' → b ≠ '-') l := by
  constructor
  · intro h
    refine h.imp ?_
    intro a b hab ha
    have := hab (by simpa using ha)
    simpa using this
  · intro h
    refine h.imp ?_
    intro a b hab ha
    simpa using hab (by simpa using ha)

lemma chain_hyphen_reverse {l : Str}
    (h : List.Chain' (fun a b : Char => a = '-' → b ≠ '-') l) :
    List.Chain' (fun a b : Char => a = '-' → b ≠ '-') l.reverse := by
  rw [List.chain'_reverse]
  refine h.imp ?_
  intro a b hab
  intro hb ha
  exact (hab ha) hb

lemma chain_dropOneLeading {l : Str}
    (h : List.Chain' (fun a b : Char => a = '-' → b ≠ '-') l) :
    List.Chain' (fun a b : Char => a = '-' → b ≠ '-') (dropOneLeading l) := by
  cases l with
  | nil => exact h
  | cons c cs =>
      simp only [dropOneLeading]
      split
      · exact h.tail
      · exact h

lemma head_dropOneLeading {l : Str}
    (h : List.Chain' (fun a b : Char => a = '-' → b ≠ '-') l) :
    ∀ y, (dropOneLeading l).head? = some y → y ≠ '-' := by
  cases l with
  | nil => intro y hy; simp [dropOneLeading] at hy
  | cons c cs =>
      intro y hy
      by_cases hc : c = '-'
      · rw [show dropOneLeading (c :: cs) = cs from by simp [dropOneLeading, hc]] at hy
        have := (List.chain'_cons'.mp h).1 y (by simpa using hy)
        exact this hc
      · rw [show dropOneLeading (c :: cs) = c :: cs from by simp [dropOneLeading, hc]] at hy
        simp only [List.head?_cons] at hy
        injection hy with hy
        exact hy ▸ hc

lemma mem_dropOneLeading {l : Str} {c : Char} (h : c ∈ dropOneLeading l) : c ∈ l := by
  cases l with
  | nil => exact h
  | cons x xs =>
      simp only [dropOneLeading] at h
      split at h
      · exact List.mem_cons_of_mem _ h
      · exact h

lemma getLast?_dropOneLeading (l : Str) :
    (dropOneLeading l).getLast? = l.getLast? ∨ dropOneLeading l = [] := by
  cases l with
  | nil => exact Or.inr rfl
  | cons c cs =>
      by_cases hc : c = '-'
      · rw [show dropOneLeading (c :: cs) = cs from by simp [dropOneLeading, hc]]
        cases cs with
        | nil => exact Or.inr rfl
        | cons d ds => exact Or.inl (List.getLast?_cons_cons).symm
      · rw [show dropOneLeading (c :: cs) = c :: cs from by simp [dropOneLeading, hc]]
        exact Or.inl rfl

lemma dropOneLeading_id {l : Str} (h : ∀ y, l.head? = some y → y ≠ '-') :
    dropOneLeading l = l := by
  cases l with
  | nil => rfl
  | cons c cs => simp [dropOneLeading, h c (by simp)]

lemma mem_trimHyphens {l : Str} {c : Char} (h : c ∈ trimHyphens l) : c ∈ l := by
  unfold trimHyphens at h
  have h1 := mem_dropOneLeading (List.mem_reverse.mp h)
  exact mem_dropOneLeading (List.mem_reverse.mp h1)

lemma trimHyphens_props {l : Str}
    (hch : List.Chain' (fun a b : Char => a = '-' → b ≠ '-') l) :
    List.Chain' (fun a b : Char => a = '-' → b ≠ '-') (trimHyphens l) ∧
    (∀ y, (trimHyphens l).head? = some y → y ≠ '-') ∧
    (∀ y, (trimHyphens l).reverse.head? = some y → y ≠ '-') := by
  have hch1 := chain_dropOneLeading hch
  have hch2 := chain_hyphen_reverse hch1
  have hch3 := chain_dropOneLeading hch2
  refine ⟨chain_hyphen_reverse hch3, ?_, ?_⟩
  · intro y hy
    rw [show trimHyphens l = (dropOneLeading (dropOneLeading l).reverse).reverse from rfl] at hy
    rw [List.head?_reverse] at hy
    rcases getLast?_dropOneLeading (dropOneLeading l).reverse with hg | hg
    · rw [hg, List.getLast?_reverse] at hy
      exact head_dropOneLeading hch y hy
    · rw [hg] at hy
      simp at hy
  · intro y hy
    rw [show (trimHyphens l).reverse = dropOneLeading (dropOneLeading l).reverse from by
      simp [trimHyphens]] at hy
    exact head_dropOneLeading hch2 y hy

lemma trimHyphens_id {l : Str} (hh : ∀ y, l.head? = some y → y ≠ '-')
    (hl : ∀ y, l.reverse.head? = some y → y ≠ '-') : trimHyphens l = l := by
  unfold trimHyphens
  rw [dropOneLeading_id hh, dropOneLeading_id hl, List.reverse_reverse]

lemma slugChar_not_ws {c : Char} (h : isLowerAlnum c = true ∨ c = '-') :
    isWsChar c = false := by
  rcases h with h | h
  · have := (by simpa [isLowerAlnum] using h :
      (97 ≤ c.toNat ∧ c.toNat ≤ 122) ∨ (48 ≤ c.toNat ∧ c.toNat ≤ 57))
    simp only [isWsChar, Bool.or_eq_false_iff, decide_eq_false_iff_not]
    omega
  · subst h; decide

lemma slug_normalized (s : Str) :
    (∀ c ∈ slugOfTitle s, isLowerAlnum c = true ∨ c = '-') ∧
    List.Chain' (fun a b : Char => a = '-' → b ≠ '-') (slugOfTitle s) ∧
    (∀ y, (slugOfTitle s).head? = some y → y ≠ '-') ∧
    (∀ y, (slugOfTitle s).reverse.head? = some y → y ≠ '-') := by
  have hchainN : List.Chain' (fun a b : Char => a = '-' → b ≠ '-')
      (collapseRuns (fun c => c = '-') '-'
        (collapseRuns isWsChar '-'
          ((List.map jsLower (stripTrailNum s)).filter keepSlugChar))) :=
    chain_decide_iff.mp ((collapseRunsGo_props (fun c => decide (c = '-')) '-' _).2)
  obtain ⟨pchain, phead, plast⟩ := trimHyphens_props hchainN
  refine ⟨?_, pchain, phead, plast⟩
  intro c hc
  have hc2 := mem_trimHyphens hc
  rcases mem_collapseRunsGo (fun c => decide (c = '-')) '-' _ false c hc2 with h1 | ⟨h2, _⟩
  · exact Or.inr h1
  · rcases mem_collapseRunsGo isWsChar '-' _ false c h2 with h4 | ⟨h5, h6⟩
    · exact Or.inr h4
    · have h7 := (List.mem_filter.mp h5).2
      simp only [keepSlugChar, Bool.or_eq_true] at h7
      rcases h7 with (hA | hB) | hC
      · exact Or.inl hA
      · rw [h6] at hB; exact absurd hB (by simp)
      · exact Or.inr (by simpa using hC)

lemma stripTrailNum_noop_of_no_ws {t : Str} (h : ∀ c ∈ t, isWsChar c = false) :
    stripTrailNum t = t := by
  cases hdw : t.reverse.dropWhile isDigitChar with
  | nil => simp [stripTrailNum, hdw]
  | cons d ds =>
      have hdm : d ∈ t := by
        refine List.mem_reverse.mp ((List.dropWhile_sublist isDigitChar).subset ?_)
        rw [hdw]
        exact List.mem_cons_self _ _
      have hd : isWsChar d = false := h d hdm
      simp [stripTrailNum, hdw, List.takeWhile_cons, hd]

lemma map_jsLower_noop {l : Str} (h : ∀ c ∈ l, isLowerAlnum c = true ∨ c = '-') :
    List.map jsLower l = l := by
  induction l with
  | nil => rfl
  | cons x xs ih =>
      have hx : jsLower x = x := by
        rcases h x (List.mem_cons_self _ _) with h1 | h1
        · have := (by simpa [isLowerAlnum] using h1 :
            (97 ≤ x.toNat ∧ x.toNat ≤ 122) ∨ (48 ≤ x.toNat ∧ x.toNat ≤ 57))
          unfold jsLower
          rw [if_neg]
          simp only [Bool.and_eq_true, decide_eq_true_eq, not_and]
          omega
        · subst h1; decide
      simp only [List.map_cons, hx, ih (fun c hc => h c (List.mem_cons_of_mem _ hc))]

lemma filter_keep_noop {l : Str} (h : ∀ c ∈ l, isLowerAlnum c = true ∨ c = '-') :
    l.filter keepSlugChar = l := by
  refine List.filter_eq_self.mpr ?_
  intro c hc
  rcases h c hc with h1 | h1
  · simp [keepSlugChar, h1]
  · subst h1; decide

/-- Claim C7: the slug-synthesis function (strip a trailing
whitespace-plus-digits run, lower-case, keep only lower-case
alphanumerics, whitespace and hyphens, replace whitespace runs by
single hyphens, collapse hyphen runs, trim leading and trailing
hyphens) is idempotent: reapplying it to any of its outputs leaves the
output unchanged, so every string in its image is a fixed point. -/
theorem slugOfTitle_idempotent (s : Str) :
    slugOfTitle (slugOfTitle s) = slugOfTitle s := by
  obtain ⟨hchar, hchain, hhead, hlast⟩ := slug_normalized s
  set m := slugOfTitle s with hm
  have hnw : ∀ c ∈ m, isWsChar c = false := fun c hc => slugChar_not_ws (hchar c hc)
  show slugOfTitle m = m
  unfold slugOfTitle
  rw [stripTrailNum_noop_of_no_ws hnw, map_jsLower_noop hchar, filter_keep_noop hchar]
  rw [show collapseRuns isWsChar '-' m = m from
    collapseRunsGo_noop_of_not isWsChar '-' m hnw]
  rw [show collapseRuns (fun c => c = '-') '-' m = m from
    collapseRunsGo_noop_of_chain (fun c => decide (c = '-')) '-' m
      (chain_decide_iff.mpr hchain) (by intro c _ hdc; simpa using hdc)]
  exact trimHyphens_id hhead hlast

/-! ### Title non-emptiness infrastructure -/

lemma head_dropWhile_not (p : Char → Bool) :
    ∀ (s : Str) {c : Char} {cs : Str}, s.dropWhile p = c :: cs → p c = false := by
  intro s
  induction s with
  | nil => intro c cs h; simp at h
  | cons x xs ih =>
      intro c cs h
      rw [List.dropWhile_cons] at h
      by_cases hx : p x = true
      · rw [if_pos hx] at h
        exact ih h
      · rw [if_neg hx] at h
        injection h with h1 _
        subst h1
        simpa using hx

lemma trimRightWs_head : ∀ {l : Str} {c : Char} {cs : Str},
    trimRightWs l = c :: cs → ∃ tl, l = c :: tl := by
  intro l
  cases l with
  | nil => intro c cs h; simp [trimRightWs] at h
  | cons x xs =>
      intro c cs h
      simp only [trimRightWs] at h
      rcases htx : trimRightWs xs with _ | ⟨y, ys⟩
      · rw [htx] at h
        by_cases hx : isWsChar x = true
        · rw [if_pos hx] at h; exact absurd h (by simp)
        · rw [if_neg hx] at h
          injection h with h1 _
          exact ⟨xs, by rw [h1]⟩
      · rw [htx] at h
        injection h with h1 _
        exact ⟨xs, by rw [h1]⟩

lemma jsTrim_head {s : Str} {c : Char} {cs : Str} (h : jsTrim s = c :: cs) :
    isWsChar c = false := by
  unfold jsTrim at h
  obtain ⟨tl, htl⟩ := trimRightWs_head h
  exact head_dropWhile_not isWsChar s htl

lemma trimRightWs_cons_of_head {c : Char} {cs : Str} (h : isWsChar c = false) :
    ∃ r, trimRightWs (c :: cs) = c :: r := by
  simp only [trimRightWs]
  rcases htx : trimRightWs cs with _ | ⟨y, ys⟩
  · exact ⟨[], by rw [if_neg (by simp [h])]⟩
  · exact ⟨y :: ys, rfl⟩

lemma jsTrim_cons_of_head {c : Char} {cs : Str} (h : isWsChar c = false) :
    ∃ r, jsTrim (c :: cs) = c :: r := by
  unfold jsTrim
  rw [List.dropWhile_cons, if_neg (by simp [h])]
  exact trimRightWs_cons_of_head h

lemma stripTrailNum_cons_of_head {c : Char} {cs : Str} (h : isWsChar c = false) :
    ∃ r, stripTrailNum (c :: cs) = c :: r := by
  set t : Str := c :: cs with ht
  by_cases hcond : ((t.reverse.takeWhile isDigitChar).isEmpty
      || ((t.reverse.dropWhile isDigitChar).takeWhile isWsChar).isEmpty) = true
  · exact ⟨cs, by simp only [stripTrailNum]; rw [if_pos hcond]⟩
  · set tds := t.reverse.takeWhile isDigitChar with htds
    set r1 := t.reverse.dropWhile isDigitChar with hr1
    set wsr := r1.takeWhile isWsChar with hwsr
    set r2 := r1.dropWhile isWsChar with hr2
    have hws : wsr ≠ [] := by
      intro hx
      apply hcond
      rw [hx]
      simp
    have hsplit1 : tds ++ r1 = t.reverse := List.takeWhile_append_dropWhile isDigitChar t.reverse
    have hsplit2 : wsr ++ r2 = r1 := List.takeWhile_append_dropWhile isWsChar r1
    have ht2 : t = r2.reverse ++ (wsr.reverse ++ tds.reverse) := by
      conv_lhs => rw [← List.reverse_reverse t]
      rw [← hsplit1, ← hsplit2]
      simp [List.reverse_append]
    have hr2ne : r2 ≠ [] := by
      intro hz
      rw [hz] at ht2
      simp only [List.reverse_nil, List.nil_append] at ht2
      rcases hw : wsr.reverse with _ | ⟨w, ws⟩
      · exact hws (by rwa [List.reverse_eq_nil_iff] at hw)
      · rw [hw] at ht2
        have hwmem : w ∈ wsr := by
          rw [← List.mem_reverse, hw]
          exact List.mem_cons_self _ _
        have hwws : isWsChar w = true := List.mem_takeWhile_imp hwmem
        rw [ht] at ht2
        simp only [List.cons_append] at ht2
        injection ht2 with h1 _
        rw [h1, hwws] at h
        exact absurd h (by simp)
    rcases hr2r : r2.reverse with _ | ⟨d, ds⟩
    · exact absurd (by rwa [List.reverse_eq_nil_iff] at hr2r) hr2ne
    · have hd : d = c := by
        rw [hr2r, ht] at ht2
        simp only [List.cons_append] at ht2
        injection ht2 with h1 _
        exact h1.symm
      refine ⟨ds, ?_⟩
      simp only [stripTrailNum]
      rw [if_neg hcond]
      rw [hr2r, hd]

lemma title_step_nonempty {c : Char} {cs : Str} (hc : isWsChar c = false) :
    jsTrim (stripTrailNum (c :: cs)) ≠ [] := by
  obtain ⟨r, hr⟩ := stripTrailNum_cons_of_head hc
  rw [hr]
  obtain ⟨r2, hr2⟩ := jsTrim_cons_of_head hc
  rw [hr2]
  simp

lemma headingOkPrimary_form {raw : Option Str} {t : Str}
    (h : headingOkPrimary raw = some t) : (∃ z, t = jsTrim z) ∧ truthyS t = true := by
  cases raw with
  | none => simp [headingOkPrimary] at h
  | some t0 =>
      simp only [headingOkPrimary] at h
      split at h
      · injection h with h
        subst h
        rename_i hcond
        exact ⟨⟨t0, rfl⟩, by
          have := hcond
          simp only [Bool.and_eq_true] at this
          exact this.1.1.1.1.1.1⟩
      · exact absurd h (by simp)

lemma headingOkServerless_form {raw : Option Str} {t : Str}
    (h : headingOkServerless raw = some t) : (∃ z, t = jsTrim z) ∧ truthyS t = true := by
  cases raw with
  | none => simp [headingOkServerless] at h
  | some t0 =>
      simp only [headingOkServerless] at h
      split at h
      · injection h with h
        subst h
        rename_i hcond
        exact ⟨⟨t0, rfl⟩, by
          have := hcond
          simp only [Bool.and_eq_true] at this
          exact this.1.1.1.1⟩
      · exact absurd h (by simp)

lemma textOkPrimary_form {raw : Option Str} {t : Str}
    (h : textOkPrimary raw = some t) : (∃ z, t = jsTrim z) ∧ truthyS t = true := by
  cases raw with
  | none => simp [textOkPrimary] at h
  | some t0 =>
      simp only [textOkPrimary] at h
      split at h
      · injection h with h
        subst h
        rename_i hcond
        exact ⟨⟨t0, rfl⟩, by
          have := hcond
          simp only [Bool.and_eq_true] at this
          exact this.1.1.1⟩
      · exact absurd h (by simp)

lemma levelStepPrimary_title_form (videoId title0 : Option Str) (lvl : AncestorLevel) :
    (levelStepPrimary videoId title0 lvl).1 = title0 ∨
    ∃ z, (levelStepPrimary videoId title0 lvl).1 = some (jsTrim z) := by
  unfold levelStepPrimary
  rcases hh : lvl.headings.findSome? headingOkPrimary with _ | th
  · simp only [hh]
    by_cases htr : truthyO title0 = true
    · rw [if_pos htr]
      rcases hl : findLinkPrimary lvl.links with _ | lk <;> simp only [hl]
      · exact Or.inl (by trivial)
      · rw [if_neg (by simp [htr])]
        exact Or.inl (by trivial)
    · rw [if_neg htr]
      rcases ht : lvl.texts.findSome? textOkPrimary with _ | tt <;> simp only [ht]
      · rcases hl : findLinkPrimary lvl.links with _ | lk <;> simp only [hl]
        · exact Or.inl (by trivial)
        · rw [if_pos (by simp [Bool.not_eq_true] at htr ⊢; exact htr)]
          rcases hlt : lk.text with _ | lt0 <;> simp only [hlt]
          · exact Or.inl (by trivial)
          · by_cases hcc : (truthyS (jsTrim lt0) && decide (5 < (jsTrim lt0).length)) = true
            · rw [if_pos hcc]
              exact Or.inr ⟨trimRightWs (stripTrailNum (jsTrim lt0)), by trivial⟩
            · rw [if_neg hcc]
              exact Or.inl (by trivial)
      · obtain ⟨raw, _, hraw⟩ := List.exists_of_findSome?_eq_some ht
        obtain ⟨⟨z, hz⟩, htt⟩ := textOkPrimary_form hraw
        rcases hl : findLinkPrimary lvl.links with _ | lk <;> simp only [hl]
        · exact Or.inr ⟨z, by rw [hz]⟩
        · rw [if_neg (by simp [truthyO, htt])]
          exact Or.inr ⟨z, by rw [hz]⟩
  · obtain ⟨raw, _, hraw⟩ := List.exists_of_findSome?_eq_some hh
    obtain ⟨⟨z, hz⟩, htt⟩ := headingOkPrimary_form hraw
    simp only [hh]
    rw [if_pos (by simp [truthyO, htt])]
    rcases hl : findLinkPrimary lvl.links with _ | lk <;> simp only [hl]
    · exact Or.inr ⟨z, by rw [hz]⟩
    · rw [if_neg (by simp [truthyO, htt])]
      exact Or.inr ⟨z, by rw [hz]⟩

lemma levelStepServerless_title_form (videoId title0 : Option Str) (lvl : AncestorLevel) :
    (levelStepServerless videoId title0 lvl).1 = title0 ∨
    ∃ z, (levelStepServerless videoId title0 lvl).1 = some (jsTrim z) := by
  unfold levelStepServerless
  rcases hh : lvl.headings.findSome? headingOkServerless with _ | th
  · simp only [hh]
    rcases hl : findLinkServerless lvl.links with _ | lk <;> simp only [hl]
    · exact Or.inl (by trivial)
    · by_cases htr : truthyO title0 = true
      · rw [if_neg (by simp [htr])]
        exact Or.inl (by trivial)
      · rw [if_pos (by simp [Bool.not_eq_true] at htr ⊢; exact htr)]
        rcases hlt : lk.text with _ | lt0 <;> simp only [hlt]
        · exact Or.inl (by trivial)
        · by_cases hcc : (truthyS (jsTrim lt0) && decide (5 < (jsTrim lt0).length)) = true
          · rw [if_pos hcc]
            exact Or.inr ⟨stripTrailNum (jsTrim lt0), by trivial⟩
          · rw [if_neg hcc]
            exact Or.inl (by trivial)
  · obtain ⟨raw, _, hraw⟩ := List.exists_of_findSome?_eq_some hh
    obtain ⟨⟨z, hz⟩, htt⟩ := headingOkServerless_form hraw
    simp only [hh]
    rcases hl : findLinkServerless lvl.links with _ | lk <;> simp only [hl]
    · exact Or.inr ⟨z, by rw [hz]⟩
    · rw [if_neg (by simp [truthyO, htt])]
      exact Or.inr ⟨z, by rw [hz]⟩

lemma walkPrimary_title_form :
    ∀ (chain : List AncestorLevel) (attempts : Nat) (videoId title0 : Option Str),
      (walkPrimary videoId attempts chain title0).1 = title0 ∨
      ∃ z, (walkPrimary videoId attempts chain title0).1 = some (jsTrim z) := by
  intro chain
  induction chain with
  | nil => intro attempts videoId title0; exact Or.inl rfl
  | cons lvl rest ih =>
      intro attempts videoId title0
      simp only [walkPrimary]
      by_cases ha : 8 ≤ attempts
      · rw [if_pos ha]
        exact Or.inl rfl
      · rw [if_neg ha]
        have hstep := levelStepPrimary_title_form videoId title0 lvl
        rcases hls : levelStepPrimary videoId title0 lvl with ⟨t1, u1⟩
        rw [hls] at hstep
        simp only at hstep
        rcases u1 with _ | u
        · simp only [hls]
          rcases ih (attempts + 1) videoId t1 with h1 | h1
          · rw [h1]; exact hstep
          · exact Or.inr h1
        · simp only [hls]
          by_cases htu : truthyS u = true
          · rw [if_pos htu]
            exact hstep
          · rw [if_neg htu]
            rcases ih (attempts + 1) videoId t1 with h1 | h1
            · rw [h1]; exact hstep
            · exact Or.inr h1

lemma walkServerless_title_form :
    ∀ (chain : List AncestorLevel) (attempts : Nat) (videoId title0 : Option Str),
      (walkServerless videoId attempts chain title0).1 = title0 ∨
      ∃ z, (walkServerless videoId attempts chain title0).1 = some (jsTrim z) := by
  intro chain
  induction chain with
  | nil => intro attempts videoId title0; exact Or.inl rfl
  | cons lvl rest ih =>
      intro attempts videoId title0
      simp only [walkServerless]
      by_cases ha : 6 ≤ attempts
      · rw [if_pos ha]
        exact Or.inl rfl
      · rw [if_neg ha]
        have hstep := levelStepServerless_title_form videoId title0 lvl
        rcases hls : levelStepServerless videoId title0 lvl with ⟨t1, u1⟩
        rw [hls] at hstep
        simp only at hstep
        rcases u1 with _ | u
        · simp only [hls]
          rcases ih (attempts + 1) videoId t1 with h1 | h1
          · rw [h1]; exact hstep
          · exact Or.inr h1
        · simp only [hls]
          by_cases htu : truthyS u = true
          · rw [if_pos htu]
            exact hstep
          · rw [if_neg htu]
            rcases ih (attempts + 1) videoId t1 with h1 | h1
            · rw [h1]; exact hstep
            · exact Or.inr h1

lemma slugFallback_title_form (i : Nat) (videoId title url : Option Str) :
    (slugFallback i videoId title url).1 = title ∨
    (slugFallback i videoId title url).1 = some (litMotionVideoTitle ++ natStr (i + 1)) := by
  unfold slugFallback
  split_ifs <;> simp

lemma mkShot_title_shape {i : Nat} {t u p : Option Str} {r : RawShot}
    (h : mkShot i t u p = some r)
    (hg : ∀ c cs, t = some (c :: cs) → isWsChar c = false) :
    ∃ c cs, r.title = some (c :: cs) ∧ isWsChar c = false := by
  unfold mkShot at h
  split at h
  · injection h with h
    subst h
    by_cases htt : truthyO t = true
    · rw [if_pos htt]
      cases t with
      | none => simp [truthyO] at htt
      | some s =>
          cases s with
          | nil => simp [truthyO, truthyS] at htt
          | cons c cs =>
              exact ⟨c, cs, rfl, hg c cs rfl⟩
    · rw [if_neg htt]
      exact ⟨'V', "ideo ".toList ++ natStr (i + 1), rfl, by decide⟩
  · exact absurd h (by simp)

lemma extractVideoPrimary_title_shape {i : Nat} {v : VideoNode} {r : RawShot}
    (h : extractVideoPrimary i v = some r) :
    ∃ c cs, r.title = some (c :: cs) ∧ isWsChar c = false := by
  refine mkShot_title_shape h ?_
  intro c cs hcc
  rcases slugFallback_title_form i (resolveVideoId (resolvePreview v))
      (walkPrimary (resolveVideoId (resolvePreview v)) 0 v.chain none).1
      (walkPrimary (resolveVideoId (resolvePreview v)) 0 v.chain none).2 with h1 | h1
  · rw [h1] at hcc
    rcases walkPrimary_title_form v.chain 0 (resolveVideoId (resolvePreview v)) none
        with h2 | ⟨z, h2⟩
    · rw [h2] at hcc
      exact absurd hcc (by simp)
    · rw [h2] at hcc
      injection hcc with hcc
      exact jsTrim_head hcc
  · rw [h1] at hcc
    injection hcc with hcc
    have hM : litMotionVideoTitle ++ natStr (i + 1) =
        'M' :: ("otion Video ".toList ++ natStr (i + 1)) := rfl
    rw [hM] at hcc
    injection hcc with hc1 _
    subst hc1
    decide

lemma extractVideoServerless_title_shape {i : Nat} {v : VideoNode} {r : RawShot}
    (h : extractVideoServerless i v = some r) :
    ∃ c cs, r.title = some (c :: cs) ∧ isWsChar c = false := by
  refine mkShot_title_shape h ?_
  intro c cs hcc
  rcases slugFallback_title_form i (resolveVideoId (resolvePreview v))
      (walkServerless (resolveVideoId (resolvePreview v)) 0 v.chain none).1
      (walkServerless (resolveVideoId (resolvePreview v)) 0 v.chain none).2 with h1 | h1
  · rw [h1] at hcc
    rcases walkServerless_title_form v.chain 0 (resolveVideoId (resolvePreview v)) none
        with h2 | ⟨z, h2⟩
    · rw [h2] at hcc
      exact absurd hcc (by simp)
    · rw [h2] at hcc
      injection hcc with hcc
      exact jsTrim_head hcc
  · rw [h1] at hcc
    injection hcc with hcc
    have hM : litMotionVideoTitle ++ natStr (i + 1) =
        'M' :: ("otion Video ".toList ++ natStr (i + 1)) := rfl
    rw [hM] at hcc
    injection hcc with hc1 _
    subst hc1
    decide

lemma formatRow_title_nonempty {now : Str} {s : RawShot}
    (hs : ∃ c cs, s.title = some (c :: cs) ∧ isWsChar c = false) :
    (formatRow now s).title ≠ [] := by
  obtain ⟨c, cs, ht, hc⟩ := hs
  show jsTrim (stripTrailNum
    (if truthyO s.title then s.title.getD [] else extractTitleFromUrl (some s.url))) ≠ []
  rw [ht]
  rw [if_pos (show truthyO (some (c :: cs)) = true from rfl)]
  simp only [Option.getD_some]
  exact title_step_nonempty hc

/-- Claim C10: every formatted record produced from an extraction run
of either variant, and from either fallback record set, has a non-empty
title: extractor titles survive the trailing-digit strip and trim,
title-less records derive a title from their url, and a url without the
shot segment falls back to "Untitled Shot". -/
theorem formatted_titles_nonempty :
    (∀ (now : Str) (videos : List VideoNode) (row : FormattedRecord),
      row ∈ formatRows now (extractShotsPrimary videos) → row.title ≠ []) ∧
    (∀ (now : Str) (videos : List VideoNode) (row : FormattedRecord),
      row ∈ formatRows now (extractShotsServerless videos) → row.title ≠ []) ∧
    ((formatRows [] mockDataPrimary).all fun r => truthyS r.title) = true ∧
    ((formatRows [] mockDataServerless).all fun r => truthyS r.title) = true ∧
    (∀ u : Str, containsStr u litShotsSeg = false →
      extractTitleFromUrl (some u) = litUntitled) := by
  refine ⟨?_, ?_, rfl, rfl, ?_⟩
  · intro now videos row hrow
    obtain ⟨s, hsmem, hseq⟩ := List.mem_map.mp hrow
    have hm := (mem_dedupGo _ [] hsmem).1
    obtain ⟨⟨i, v⟩, _, hev⟩ := List.mem_filterMap.mp hm
    rw [← hseq]
    exact formatRow_title_nonempty (extractVideoPrimary_title_shape hev)
  · intro now videos row hrow
    obtain ⟨s, hsmem, hseq⟩ := List.mem_map.mp hrow
    have hm := (mem_dedupGo _ [] hsmem).1
    obtain ⟨⟨i, v⟩, _, hev⟩ := List.mem_filterMap.mp hm
    rw [← hseq]
    exact formatRow_title_nonempty (extractVideoServerless_title_shape hev)
  · intro u hu
    unfold extractTitleFromUrl
    by_cases htu : truthyO (some u) = true
    · rw [if_neg (by simp [htu])]
      have h2 : (splitOn1 litShotsSeg u).2 = none := by
        rcases hsp : (splitOn1 litShotsSeg u).2 with _ | x
        · rfl
        · exact absurd (by simp [containsStr, hsp] : containsStr u litShotsSeg = true)
            (by simp [hu])
      simp only [Option.getD_some, h2]
    · rw [if_pos (by simp [Bool.not_eq_true] at htu ⊢; exact htu)]

theorem formatted_titles_nonempty_witness :
    (formatRow ("2025-09-20T11:40:18.861Z".toList)
      { url := "https://60fps.design/shots/demo-swipe-interaction?video=abc12345".toList,
        preview := "https://video.gumlet.io/bucket1/abc12345/main.mp4".toList,
        title := some ("Demo Swipe".toList) }).title ≠ [] :=
  formatted_titles_nonempty.1 ("2025-09-20T11:40:18.861Z".toList) [demoVideo] _ (by decide)

theorem dedup_first_occurrence_unique_witness :
    ∃ y ∈ dedupByUrl mockDataServerless,
      y.url = ({ url := "https://60fps.design/shots/amie-drag-to-calendar-morph".toList,
                 preview := "https://cdn.60fps.design/shots/amie-drag-to-calendar-morph/preview.mp4".toList,
                 title := some ("Amie Drag To Calendar Morph".toList) } : RawShot).url :=
  dedup_first_occurrence_unique.2.2.2.2 mockDataServerless _ (by decide)
